import Mathlib

/-!
Verification of the reference-conditioned segmented synthesis pipeline of the
F5-TTS voice-cloning front end (`f5tts_wrapper.py`, `utils/text_utils.py`).

Python strings are modelled as `List Char`, UTF-8 byte lengths by summing
per-character encoded sizes, and floating-point sample/scalar arithmetic by
exact rational arithmetic (`ℚ`); places where the exact model and IEEE-754
semantics could diverge are flagged in the doc comments of the definitions
concerned.
-/

namespace F5TTS

/-- The byte length of one character under UTF-8, as computed by Python's
`len(ch.encode("utf-8"))` (1 for code points below 0x80, 2 below 0x800,
3 below 0x10000, 4 otherwise). -/
def charBytes (c : Char) : ℕ :=
  if c.toNat < 128 then 1
  else if c.toNat < 2048 then 2
  else if c.toNat < 65536 then 3
  else 4

/-- Python's `len(s.encode("utf-8"))`: UTF-8 byte length of a string. -/
def utf8Len (s : List Char) : ℕ := (s.map charBytes).sum

/-- Python's `\s` / `str.split()` whitespace test, for the ASCII whitespace
characters (space, tab, newline, carriage return, vertical tab, form feed).
Non-ASCII Unicode whitespace is not modelled. -/
def pyIsSpace (c : Char) : Bool :=
  c == ' ' || c == '\t' || c == '\n' || c == '\r' || c == '\x0b' || c == '\x0c'

/-- Helper flushing the (reversed) word accumulator of `pyWordsAux`. -/
def flushCur (cur : List Char) : List (List Char) :=
  if cur.isEmpty then [] else [cur.reverse]

/-- Worker for `pyWords`; `cur` holds the current word reversed. -/
def pyWordsAux : List Char → List Char → List (List Char)
  | [], cur => flushCur cur
  | c :: rest, cur =>
      if pyIsSpace c then flushCur cur ++ pyWordsAux rest []
      else pyWordsAux rest (c :: cur)

/-- Python's `str.split()` with no argument: split on runs of whitespace,
discarding empty fields. -/
def pyWords (s : List Char) : List (List Char) := pyWordsAux s []

/-- Python's `str.lstrip()` (whitespace). -/
def pyLstrip (s : List Char) : List Char := s.dropWhile (fun c => pyIsSpace c)

/-- Python's `str.rstrip()` (whitespace). -/
def pyRstrip (s : List Char) : List Char :=
  (s.reverse.dropWhile (fun c => pyIsSpace c)).reverse

/-- Python's `str.strip()` (whitespace). -/
def pyStrip (s : List Char) : List Char := pyRstrip (pyLstrip s)

/-- Python's `int()` applied to a real-valued expression: truncation toward
zero (floor for nonnegative values, ceiling for negative ones). -/
def pytrunc (q : ℚ) : ℤ := if 0 ≤ q then ⌊q⌋ else ⌈q⌉

/-- Mathematical rounding to the nearest integer (round half up), the
reading of the word "round" in the specification. -/
def roundSpec (q : ℚ) : ℤ := ⌊q + 1/2⌋

/-- Lines 415-418 of `f5tts_wrapper.py`: the per-batch speed used by
`generate`; batches of UTF-8 byte length < 10 are forced to speed 0.3. -/
def localSpeed (speed : ℚ) (batch : List Char) : ℚ :=
  if utf8Len batch < 10 then 3/10 else speed

/-- Lines 425-431 of `f5tts_wrapper.py`: the frame count passed to the
acoustic model for one text batch. With `fix_duration` set it is
`int(fix_duration * target_sample_rate / hop_length)`; otherwise
`ref_audio_len + int(ref_audio_len / ref_text_len * gen_text_len / local_speed)`
where the text lengths are UTF-8 byte lengths. The Python code evaluates the
quotients in IEEE double precision; the model uses exact rationals. -/
def duration (refAudioLen : ℕ) (refText batch : List Char) (speed : ℚ)
    (fixDuration : Option ℚ) (sr hop : ℕ) : ℤ :=
  match fixDuration with
  | some fd => pytrunc (fd * sr / hop)
  | none =>
      refAudioLen +
        pytrunc ((refAudioLen : ℚ) / (utf8Len refText : ℚ) * (utf8Len batch : ℚ) /
          localSpeed speed batch)

/-- Lines 402-403 of `f5tts_wrapper.py`: the per-batch byte budget
`int(len(ref_text.encode("utf-8")) / audio_len * (22 - audio_len))` where
`audio_len = samples / target_sample_rate` is the reference length in
seconds. -/
def maxChars (refText : List Char) (samples sr : ℕ) : ℤ :=
  pytrunc ((utf8Len refText : ℚ) / ((samples : ℚ) / (sr : ℚ)) *
    (22 - (samples : ℚ) / (sr : ℚ)))

/-! ### Audio loudness model

Waveforms are lists of rational samples. `torch.sqrt(torch.mean(torch.square(a)))`
is handled by carrying the root-mean-square value `r` as a separate argument
constrained by `isRms a r` (`r` is nonnegative and `r * r` is the mean square),
which characterises it exactly without leaving the rationals. -/

/-- Mean of the squared samples, `torch.mean(torch.square(a))`; the mean of an
empty waveform is the junk value 0. -/
def meanSq (a : List ℚ) : ℚ := (a.map (fun x => x * x)).sum / (a.length : ℚ)

/-- The statement that `r` is the root-mean-square loudness of `a`. -/
def isRms (a : List ℚ) (r : ℚ) : Prop := 0 ≤ r ∧ r * r = meanSq a

/-- Lines 309-312 of `f5tts_wrapper.py` (`preprocess_reference`):
`if rms < self.target_rms: audio = audio * self.target_rms / rms`, with `r`
the measured RMS and `t` the target floor. When the branch is taken with
`r = 0` the tensor expression evaluates elementwise to `0.0 * t / 0.0`,
an IEEE 0/0, so every sample becomes NaN; the NaN-poisoned buffer is
modelled as `none`. -/
def normalizeVolume (a : List ℚ) (r t : ℚ) : Option (List ℚ) :=
  if r < t then
    (if r = 0 then none else some (a.map (fun x => x * t / r)))
  else some a

/-- The same lines 309-312 in total exact-rational form, used inside the
preprocessing control-flow model where the sample values are irrelevant: in
`ℚ` the division `0 * t / 0` collapses to the junk value 0 instead of NaN
(see `normalizeVolume` for the faithful treatment of that corner). -/
def normalizeVolumeT (a : List ℚ) (r t : ℚ) : List ℚ :=
  if r < t then a.map (fun x => x * t / r) else a

/-- Lines 455-458 of `f5tts_wrapper.py` (`generate`): the generated waveform
is rescaled by `rms / self.target_rms` when `rms < self.target_rms`, where
`r` is the RMS measured on `self.ref_audio_processed` (the stored,
already-normalized reference). -/
def loudnessCorrect (r targetRms : ℚ) (wave : List ℚ) : List ℚ :=
  if r < targetRms then wave.map (fun x => x * r / targetRms) else wave

/-! ### Reference transcript punctuation -/

/-- Lines 295-300 of `f5tts_wrapper.py`: normalize the reference transcript
ending. If it does not end with `". "` or `"。"`: append `" "` when it ends
with `"."`, else append `". "`. -/
def fixPunct (t : List Char) : List Char :=
  if ['.', ' '].isSuffixOf t || ['。'].isSuffixOf t then t
  else if ['.'].isSuffixOf t then t ++ [' ']
  else t ++ ['.', ' ']

/-! ### Text segmentation (`utils/text_utils.py`, `split_long_text`) -/

/-- Sentence-final punctuation of the first split pattern `(?<=[.!?])\s+`. -/
def strongPunct : List Char := ['.', '!', '?']

/-- Clause punctuation of the second split pattern `(?<=[;:])\s+`. -/
def clausePunct : List Char := [';', ':']

/-- Comma punctuation of the third split pattern `(?<=[,])\s+`. -/
def commaPunct : List Char := [',']

/-- Test whether the last scanned character (head of the reversed accumulator)
is one of the lookbehind characters. -/
def headPunct (punct cur : List Char) : Bool :=
  match cur with
  | [] => false
  | p :: _ => punct.contains p

/-- Worker for `reSplitAfter`: scan the text keeping the current field
reversed in `cur`; a whitespace character directly preceded by a lookbehind
character starts a separator, and `inSep` records that the following
whitespace belongs to the same (maximal) separator run. -/
def reSplitAux (punct : List Char) : List Char → List Char → Bool → List (List Char)
  | [], cur, _ => [cur.reverse]
  | c :: rest, cur, inSep =>
      if inSep && pyIsSpace c then reSplitAux punct rest cur true
      else if pyIsSpace c && headPunct punct cur then
        cur.reverse :: reSplitAux punct rest [] true
      else reSplitAux punct rest (c :: cur) false

/-- Python's `re.split(r"(?<=[X])\s+", s)` for a character class `X`: split
`s` at maximal whitespace runs that directly follow a character of `punct`,
dropping the whitespace. A trailing separator yields a final empty field,
exactly as `re.split` does. -/
def reSplitAfter (punct : List Char) (s : List Char) : List (List Char) :=
  reSplitAux punct s [] false

/-- One pass of the pattern loop in `split_long_text` (lines 44-56): if every
chunk fits in `maxB` bytes the loop breaks (modelled as the identity, which
also makes the remaining passes identities); otherwise chunks over the limit
are split by the pattern and the rest are kept. -/
def applyPattern (maxB : ℕ) (punct : List Char) (chunks : List (List Char)) :
    List (List Char) :=
  if chunks.all (fun c => decide (utf8Len c ≤ maxB)) then chunks
  else (chunks.map (fun c =>
    if utf8Len c ≤ maxB then [c] else reSplitAfter punct c)).flatten

/-- The greedy word-packing loop of `split_long_text` (lines 65-75): `current`
accumulates words while `current + " " + word` fits in `maxB` bytes; when a
word does not fit, the nonempty accumulator is emitted and the word starts a
new accumulator (so a single word longer than the limit is emitted on its
own, untruncated). -/
def packWords (maxB : ℕ) : List (List Char) → List Char → List (List Char)
  | [], cur => if cur.isEmpty then [] else [cur]
  | w :: ws, cur =>
      if utf8Len (cur ++ ' ' :: w) ≤ maxB then
        packWords maxB ws (pyStrip (cur ++ ' ' :: w))
      else if cur.isEmpty then packWords maxB ws w
      else cur :: packWords maxB ws w

/-- Lines 59-75 of `split_long_text`: chunks still over the limit after the
pattern passes are re-split by greedy word packing. -/
def wordPhase (maxB : ℕ) (chunks : List (List Char)) : List (List Char) :=
  (chunks.map (fun c =>
    if utf8Len c ≤ maxB then [c] else packWords maxB (pyWords c) [])).flatten

/-- Test of line 79: `result[i].rstrip().endswith(('.', ',', ':', ';', '!', '?'))`. -/
def endsSentencePunct (s : List Char) : Bool :=
  match s.getLast? with
  | some c => ['.', ',', ':', ';', '!', '?'].contains c
  | none => false

/-- Line 80: a chunk that does not already end (after right-trimming) in
punctuation is right-trimmed and given a trailing comma; otherwise it is
kept as is. -/
def fixChunk (c : List Char) : List Char :=
  if endsSentencePunct (pyRstrip c) then c else pyRstrip c ++ [',']

/-- Lines 78-80 of `split_long_text`: apply `fixChunk` to every chunk except
the last. -/
def splitFix : List (List Char) → List (List Char)
  | [] => []
  | [c] => [c]
  | c :: rest => fixChunk c :: splitFix rest

/-- Lines 44-75 of `split_long_text`: the three priority pattern passes
(sentence, clause, comma) followed by the word-packing phase, before the
final boundary-punctuation pass. -/
def sltCore (text : List Char) (maxB : ℕ) : List (List Char) :=
  wordPhase maxB
    (applyPattern maxB commaPunct
      (applyPattern maxB clausePunct
        (applyPattern maxB strongPunct [text])))

/-- Function `split_long_text(text, max_chars)` of `utils/text_utils.py`
(lines 34-82), with the byte limit `maxB`. -/
def split_long_text (text : List Char) (maxB : ℕ) : List (List Char) :=
  splitFix (sltCore text maxB)

/-- Modelled from the spec: `generate` delegates text splitting to
`chunk_text` imported from the external `f5_tts` package, whose source is not
part of this repository. Spec section 4.2 describes the splitter: split at
sentence boundaries, then clause boundaries, then commas — each level applied
only to chunks still over the limit — then fall back to whitespace-delimited
word boundaries, never truncating a single oversized word. That is exactly
the pattern-pass/word-pack pipeline of `split_long_text` without its final
boundary-punctuation pass (which section 4.2 does not mention). -/
def chunkTextModel (text : List Char) (maxB : ℕ) : List (List Char) :=
  sltCore text maxB

/-! ### Segment stitching (`generate`, lines 469-502) -/

/-- Model of `np.linspace a b n`: `n` evenly spaced points from `a` to `b`
inclusive (for `n = 1` the single point is `a`; the `ℚ` junk division by
zero gives that directly). -/
def linspace (a b : ℚ) (n : ℕ) : List ℚ :=
  (List.range n).map (fun (i : ℕ) => a + (b - a) * (i : ℚ) / ((n : ℚ) - 1))

/-- One iteration of the cross-fade fold (lines 477-502): overlap
`n = min(int(cfd * sr), len prev, len next)` samples; if the overlap is empty
just concatenate, else blend the overlap with linear fade-out and fade-in
ramps. -/
def mergePair (cfd : ℚ) (sr : ℕ) (prev next : List ℚ) : List ℚ :=
  let fade := (pytrunc (cfd * (sr : ℚ))).toNat
  let n := min fade (min prev.length next.length)
  if n = 0 then prev ++ next
  else
    prev.take (prev.length - n) ++
      (List.zipWith (fun x y => x + y)
        (List.zipWith (fun x y => x * y) (prev.drop (prev.length - n)) (linspace 1 0 n))
        (List.zipWith (fun x y => x * y) (next.take n) (linspace 0 1 n))) ++
      next.drop n

/-- Lines 469-502 of `generate`: combine the per-batch waveforms. An empty
segment list raises `RuntimeError("No audio generated")`, modelled as `none`;
with `cross_fade_duration <= 0` the segments are concatenated; otherwise the
segments are folded left-to-right through `mergePair`. -/
def stitch (segs : List (List ℚ)) (cfd : ℚ) (sr : ℕ) : Option (List ℚ) :=
  match segs with
  | [] => none
  | s :: rest =>
      some (if cfd ≤ 0 then (s :: rest).flatten else rest.foldl (mergePair cfd sr) s)

/-! ### Reference preprocessing control flow (`preprocess_reference`) -/

/-- Failure of one of the fallible collaborator stages of
`preprocess_reference` (a raised Python exception). -/
inductive PyErr where
  | decodeFailed
  | clipFailed
  | transcribeFailed
  | loadFailed
deriving DecidableEq

/-- The single-slot reference cache held on the wrapper object
(`self.ref_audio_processed`, `self.ref_text`, `self.ref_audio_len`),
initialized to `None` in `__init__`. -/
structure RefState where
  ref_audio_processed : Option (List ℚ)
  ref_text : Option (List Char)
  ref_audio_len : Option ℕ
deriving DecidableEq

/-- Lines 232-330 of `f5tts_wrapper.py` (`preprocess_reference`), with the
external collaborator calls supplied as `Except`-valued oracles in program
order: audio decoding (`AudioSegment.from_file`), the silence
clipping/trimming/export stage (pydub operations and the temp-file export),
transcription (`transcribe`, consulted only when the supplied transcript is
whitespace-blank), and tensor loading (`torchaudio.load`, yielding mono
samples and their sample rate). `rmsVal` stands for the computed
`torch.sqrt(torch.mean(torch.square(audio)))` (see `isRms`), and `resample`
for the external `torchaudio.transforms.Resample` collaborator. The function
returns the wrapper state after the call together with the call's result: a
raised error leaves the state exactly as it was, because the three stores of
lines 323-325 only execute after every fallible stage has succeeded. -/
def preprocess_reference (st : RefState) (hop targetSr : ℕ) (targetRms : ℚ)
    (refText : List Char) (decodeRes : Except PyErr Unit)
    (clipRes : Except PyErr Unit) (transcribeRes : Except PyErr (List Char))
    (loadRes : Except PyErr (List ℚ × ℕ)) (rmsVal : ℚ)
    (resample : List ℚ → ℕ → ℕ → List ℚ) :
    RefState × Except PyErr (List ℚ × List Char) :=
  match decodeRes with
  | .error e => (st, .error e)
  | .ok _ =>
    match clipRes with
    | .error e => (st, .error e)
    | .ok _ =>
      match (if (pyStrip refText).isEmpty then transcribeRes else .ok refText) with
      | .error e => (st, .error e)
      | .ok t0 =>
        let t := fixPunct t0
        match loadRes with
        | .error e => (st, .error e)
        | .ok (audio0, sr) =>
          let audioN := normalizeVolumeT audio0 rmsVal targetRms
          let audioF := if sr ≠ targetSr then resample audioN sr targetSr else audioN
          ({ ref_audio_processed := some audioF
             ref_text := some t
             ref_audio_len := some (audioF.length / hop) },
           .ok (audioF, t))

end F5TTS

/-! ## Helper lemmas -/

namespace F5TTS

theorem charBytes_pos (c : Char) : 0 < charBytes c := by
  unfold charBytes
  split
  · norm_num
  split
  · norm_num
  split <;> norm_num

theorem utf8Len_append (a b : List Char) :
    utf8Len (a ++ b) = utf8Len a + utf8Len b := by
  simp [utf8Len]

theorem utf8Len_pos {s : List Char} (h : s ≠ []) : 0 < utf8Len s := by
  cases s with
  | nil => exact absurd rfl h
  | cons c cs =>
      have hc := charBytes_pos c
      simp only [utf8Len, List.map_cons, List.sum_cons]
      omega

/-! ## C1: duration estimate formula -/

/-- Claim C1 as stated is false: the code truncates the extrapolated extra
frames with `int(...)` (toward zero) instead of rounding them to the nearest
integer, in both the text-extrapolation branch and the `fix_duration`
branch. With 7 reference frames, a 4-byte reference transcript, a 10-byte
batch and speed 1, the operand is 17.5: the code yields 7 + 17 = 24 frames,
the claimed rounding 7 + 18 = 25. With `fix_duration = 0.001 s`, 24 kHz and
hop 256 the code yields `int(0.09375) = 0` frames, not the claimed real
quotient 0.09375. -/
theorem C1_counterexample :
    duration 7 "abcd".toList "abcdefghij".toList 1 none 24000 256 ≠
      7 + roundSpec ((7 : ℚ) / 4 * 10 / 1) ∧
    (duration 7 "abcd".toList "abcdefghij".toList 1 (some (1/1000)) 24000 256 : ℚ) ≠
      (1/1000 : ℚ) * 24000 / 256 := by
  have h1 : utf8Len "abcd".toList = 4 := by decide
  have h2 : utf8Len "abcdefghij".toList = 10 := by decide
  constructor
  · simp only [duration, localSpeed, h1, h2]
    norm_num [pytrunc, roundSpec]
  · simp only [duration]
    norm_num [pytrunc]

/-- C1 (amended): for every synthesis batch with no fixed duration and a
positive requested speed, the estimated frame count equals
`ref_frames + floor(ref_frames / ref_transcript_bytes * batch_bytes /
effective_speed)` — truncation toward zero, which is a floor here because
the operand is nonnegative — where `effective_speed` is the requested speed
unless the batch is under 10 UTF-8 bytes, in which case it is 0.3; with a
nonnegative fixed duration the frame count is
`floor(fix_duration * target_sample_rate / hop_length)`. -/
theorem C1_amended (refAudioLen : ℕ) (refText batch : List Char) (speed : ℚ)
    (sr hop : ℕ) (hspeed : 0 < speed) :
    duration refAudioLen refText batch speed none sr hop =
      refAudioLen + ⌊(refAudioLen : ℚ) / (utf8Len refText : ℚ) * (utf8Len batch : ℚ) /
        (if utf8Len batch < 10 then 3/10 else speed)⌋ ∧
    ∀ fd : ℚ, 0 ≤ fd →
      duration refAudioLen refText batch speed (some fd) sr hop =
        ⌊fd * (sr : ℚ) / (hop : ℚ)⌋ := by
  constructor
  · have hs : (0:ℚ) < if utf8Len batch < 10 then 3/10 else speed := by
      split <;> [norm_num; exact hspeed]
    have hnn : 0 ≤ (refAudioLen : ℚ) / (utf8Len refText : ℚ) * (utf8Len batch : ℚ) /
        (if utf8Len batch < 10 then 3/10 else speed) := by
      apply div_nonneg
      · exact mul_nonneg (div_nonneg (by positivity) (by positivity)) (by positivity)
      · exact le_of_lt hs
    simp only [duration, localSpeed, pytrunc, if_pos hnn]
  · intro fd hfd
    have hnn : 0 ≤ fd * (sr : ℚ) / (hop : ℚ) := by positivity
    simp only [duration, pytrunc, if_pos hnn]

/-- Witness for `C1_amended` at concrete inputs (7 reference frames, 4-byte
transcript, 10-byte batch, speed 1). -/
theorem C1_amended_witness :
    duration 7 "abcd".toList "abcdefghij".toList 1 none 24000 256 =
      7 + ⌊(7 : ℚ) / (utf8Len "abcd".toList : ℚ) * (utf8Len "abcdefghij".toList : ℚ) /
        (if utf8Len "abcdefghij".toList < 10 then 3/10 else 1)⌋ :=
  (C1_amended 7 "abcd".toList "abcdefghij".toList 1 24000 256 (by norm_num)).1

/-! ## C2: scenario — 6 s reference, 12-byte transcript, batch "Test." -/

/-- Claim C2 as stated is false: `max_bytes = 32` and the single chunk
"Test." are right, but "Test." is 5 UTF-8 bytes, under the 10-byte floor,
so `generate` forces the local speed to 0.3 (and truncates with `int`): at
the default rates a 6 s reference has `ref_frames = 144000 // 256 = 562`,
giving `562 + int(562/12*5/0.3) = 1342` frames, not the claimed
`562 + round(562/12*5/1.0) = 796`. -/
theorem C2_counterexample :
    maxChars "Hello world.".toList 144000 24000 = 32 ∧
    chunkTextModel "Test.".toList 32 = ["Test.".toList] ∧
    duration 562 "Hello world.".toList "Test.".toList 1 none 24000 256 ≠
      562 + roundSpec ((562 : ℚ) / 12 * 5 / 1) := by
  refine ⟨?_, by decide, ?_⟩
  · have h1 : utf8Len "Hello world.".toList = 12 := by decide
    simp only [maxChars, h1]
    norm_num [pytrunc]
  · have h1 : utf8Len "Hello world.".toList = 12 := by decide
    have h2 : utf8Len "Test.".toList = 5 := by decide
    simp only [duration, localSpeed, h1, h2]
    norm_num [pytrunc, roundSpec]

/-- C2 (amended): for a 6 s reference (144000 samples at 24 kHz) with a
12-byte transcript and input text "Test." at requested speed 1 with no
fixed duration, the batch limit is `max_bytes = int(12/6*(22-6)) = 32`, the
text is kept as the single chunk "Test.", and the estimated frame count is
`ref_frames + int(ref_frames/12*5/0.3) = 562 + 780 = 1342` — the 5-byte
batch is under the 10-byte floor, so the effective speed is 0.3, and the
extrapolated frames are truncated, not rounded. -/
theorem C2_amended :
    maxChars "Hello world.".toList 144000 24000 = 32 ∧
    chunkTextModel "Test.".toList 32 = ["Test.".toList] ∧
    duration 562 "Hello world.".toList "Test.".toList 1 none 24000 256 =
      562 + pytrunc ((562 : ℚ) / 12 * 5 / (3/10)) ∧
    duration 562 "Hello world.".toList "Test.".toList 1 none 24000 256 = 1342 := by
  have h1 : utf8Len "Hello world.".toList = 12 := by decide
  have h2 : utf8Len "Test.".toList = 5 := by decide
  refine ⟨?_, by decide, ?_, ?_⟩
  · simp only [maxChars, h1]
    norm_num [pytrunc]
  · simp only [duration, localSpeed, h1, h2]
    norm_num
  · simp only [duration, localSpeed, h1, h2]
    norm_num [pytrunc]

end F5TTS

namespace F5TTS

/-! ## C4: loudness normalization and silence -/

/-- Claim C4's silence case fails in the code: an all-zero input has RMS 0,
which is below the target floor 0.1, so the boost branch is taken and every
sample is computed as `0.0 * 0.1 / 0.0`, an IEEE 0/0 — the buffer becomes
NaN (modelled as `none`) instead of being left unchanged. The
RMS-monotonicity half of the claim is the code's evident intent (it only
ever scales up, see `C3`-side lemmas), so this is a defect of the code at
the silence corner, not of the claim. -/
theorem C4_silence_nan :
    isRms [(0:ℚ), 0, 0] 0 ∧ (0:ℚ) < 1/10 ∧
    normalizeVolume [(0:ℚ), 0, 0] 0 (1/10) = none := by
  refine ⟨⟨le_refl 0, ?_⟩, by norm_num, ?_⟩
  · norm_num [meanSq]
  · unfold normalizeVolume
    rw [if_pos (by norm_num : (0:ℚ) < 1/10), if_pos rfl]

/-! ## C5: transcript terminal punctuation -/

theorem fixPunct_endsProper (t : List Char) :
    ['.', ' '].isSuffixOf (fixPunct t) ∨ ['。'].isSuffixOf (fixPunct t) := by
  unfold fixPunct
  by_cases h1 : (['.', ' '].isSuffixOf t || ['。'].isSuffixOf t) = true
  · rw [if_pos h1]
    rcases Bool.or_eq_true_iff.mp h1 with h | h
    · exact Or.inl h
    · exact Or.inr h
  · rw [if_neg h1]
    by_cases h2 : ['.'].isSuffixOf t
    · rw [if_pos h2]
      left
      rw [List.isSuffixOf_iff_suffix] at h2 ⊢
      obtain ⟨u, hu⟩ := h2
      exact ⟨u, by rw [← hu]; simp⟩
    · rw [if_neg h2]
      left
      rw [List.isSuffixOf_iff_suffix]
      exact ⟨t, rfl⟩

theorem fixPunct_ne_nil (t : List Char) : fixPunct t ≠ [] := by
  rcases fixPunct_endsProper t with h | h <;>
    rw [List.isSuffixOf_iff_suffix] at h <;> obtain ⟨u, hu⟩ := h <;> simp [← hu]

/-- Claim C5 as stated is false: the code only treats `"."` (and the
already-normalized endings `". "` and `"。"`) as terminal punctuation. A
transcript ending in `"!"` (terminal punctuation without a trailing space)
does not get just a space appended — the code appends `". "`, producing
`"Hi!. "` rather than the claimed `"Hi! "`. -/
theorem C5_counterexample :
    fixPunct "Hi!".toList = "Hi!. ".toList ∧
    fixPunct "Hi!".toList ≠ "Hi!".toList ++ [' '] := by decide

/-- C5 (amended): preprocessing normalizes the transcript ending as follows —
a transcript already ending in `". "` or `"。"` is left unchanged; one
ending in `"."` (without the space) gets a single space appended; any other
transcript, including one ending in `"!"` or `"?"`, gets `". "` appended.
Consequently every normalized transcript ends in `". "` or `"。"`. -/
theorem C5_amended (t : List Char) :
    (['.', ' '].isSuffixOf (fixPunct t) ∨ ['。'].isSuffixOf (fixPunct t)) ∧
    (['.', ' '].isSuffixOf t ∨ ['。'].isSuffixOf t → fixPunct t = t) ∧
    (¬ ['.', ' '].isSuffixOf t ∧ ¬ ['。'].isSuffixOf t ∧ ['.'].isSuffixOf t →
      fixPunct t = t ++ [' ']) ∧
    (¬ ['.', ' '].isSuffixOf t ∧ ¬ ['。'].isSuffixOf t ∧ ¬ ['.'].isSuffixOf t →
      fixPunct t = t ++ ['.', ' ']) := by
  refine ⟨fixPunct_endsProper t, ?_, ?_, ?_⟩
  · intro h
    have hb : (['.', ' '].isSuffixOf t || ['。'].isSuffixOf t) = true := by
      rcases h with h | h <;> simp [h]
    simp [fixPunct, hb]
  · rintro ⟨h1, h2, h3⟩
    have hb : (['.', ' '].isSuffixOf t || ['。'].isSuffixOf t) = false := by
      rw [Bool.or_eq_false_iff]
      exact ⟨Bool.eq_false_iff.mpr h1, Bool.eq_false_iff.mpr h2⟩
    simp [fixPunct, hb, h3]
  · rintro ⟨h1, h2, h3⟩
    have hb : (['.', ' '].isSuffixOf t || ['。'].isSuffixOf t) = false := by
      rw [Bool.or_eq_false_iff]
      exact ⟨Bool.eq_false_iff.mpr h1, Bool.eq_false_iff.mpr h2⟩
    have h3b : ['.'].isSuffixOf t = false := Bool.eq_false_iff.mpr h3
    simp [fixPunct, hb, h3b]

/-- Witness for `C5_amended`: on `"Hi!"` the third case fires and the
result ends in `". "`. -/
theorem C5_amended_witness :
    (['.', ' '].isSuffixOf (fixPunct "Hi!".toList) ∨
      ['。'].isSuffixOf (fixPunct "Hi!".toList)) ∧
    fixPunct "Hi!".toList = "Hi!".toList ++ ['.', ' '] :=
  ⟨(C5_amended "Hi!".toList).1,
   (C5_amended "Hi!".toList).2.2.2 (by refine ⟨?_, ?_, ?_⟩ <;> decide)⟩

end F5TTS

namespace F5TTS

/-! ## C3: generated-waveform loudness correction -/

theorem meanSq_map_mul (a : List ℚ) (c : ℚ) :
    meanSq (a.map (fun x => x * c)) = c * c * meanSq a := by
  unfold meanSq
  rw [List.map_map]
  have h : ((fun x => x * x) ∘ fun x => x * c) = fun x => (x * x) * (c * c) := by
    funext x
    simp only [Function.comp_apply]
    ring
  rw [h, List.sum_map_mul_right, List.length_map]
  ring

/-- Claim C3 as stated is false at a concrete boosted reference: take a
one-sample reference `[1/20]` with original RMS `1/20`, below the target
floor `1/10`. Preprocessing boosts it to `[1/10]`, whose RMS is exactly the
floor, so the re-measured RMS in `generate` is not below the floor and no
scaling is applied: a generated wave `[1]` is returned as `[1]`, not as the
claimed `[1 * (1/20)/(1/10)] = [1/2]`. -/
theorem C3_counterexample :
    isRms [(1:ℚ)/20] (1/20) ∧ (1/20 : ℚ) < 1/10 ∧
    normalizeVolume [(1:ℚ)/20] (1/20) (1/10) = some [1/10] ∧
    isRms [(1:ℚ)/10] (1/10) ∧
    loudnessCorrect (1/10) (1/10) [1] = [1] ∧
    ([(1:ℚ)] ≠ [1 * ((1/20 : ℚ) / (1/10))]) := by
  refine ⟨⟨by norm_num, by norm_num [meanSq]⟩, by norm_num, ?_, ?_, ?_, ?_⟩
  · unfold normalizeVolume
    rw [if_pos (by norm_num : (1/20 : ℚ) < 1/10), if_neg (by norm_num : ¬ (1/20 : ℚ) = 0)]
    norm_num
  · exact ⟨by norm_num, by norm_num [meanSq]⟩
  · unfold loudnessCorrect
    rw [if_neg (by norm_num : ¬ (1/10 : ℚ) < 1/10)]
  · intro h
    have := List.head_eq_of_cons_eq h
    norm_num at this

/-- C3 (amended): `generate` measures the RMS of the stored, already
normalized reference (`self.ref_audio_processed`), not the original
pre-normalization RMS, and rescales only when that measured value is below
the target floor. For every reference that preprocessing boosted (original
RMS strictly between 0 and the floor) the processed reference's RMS equals
the floor exactly (in exact arithmetic), so the condition is false and the
generated waveform is returned unscaled — the claimed inverse-boost scaling
never happens. -/
theorem C3_amended (orig : List ℚ) (r0 t : ℚ) (processed : List ℚ) (r1 : ℚ)
    (wave : List ℚ) (h0 : isRms orig r0) (hpos : 0 < r0) (hlt : r0 < t)
    (hn : normalizeVolume orig r0 t = some processed) (h1 : isRms processed r1) :
    loudnessCorrect r1 t wave = wave := by
  have hr0 : r0 ≠ 0 := ne_of_gt hpos
  unfold normalizeVolume at hn
  rw [if_pos hlt, if_neg hr0] at hn
  have hproc : processed = orig.map (fun x => x * t / r0) := by
    exact (Option.some_inj.mp hn).symm
  have hms : meanSq processed = t * t := by
    have hmap : (fun x : ℚ => x * t / r0) = fun x : ℚ => x * (t / r0) := by
      funext x
      ring
    rw [hproc, hmap, meanSq_map_mul, ← h0.2]
    field_simp
  have hr1t : r1 = t := by
    have hsq : r1 * r1 = t * t := by rw [h1.2, hms]
    have ht : 0 < t := lt_trans hpos hlt
    nlinarith [h1.1]
  unfold loudnessCorrect
  rw [hr1t, if_neg (lt_irrefl t)]

/-- Witness for `C3_amended` at the concrete boosted reference `[1/20]`
with target floor `1/10` and generated wave `[1, 2]`. -/
theorem C3_amended_witness :
    loudnessCorrect (1/10) (1/10) [(1:ℚ), 2] = [(1:ℚ), 2] :=
  C3_amended [(1:ℚ)/20] (1/20) (1/10) [(1:ℚ)/10] (1/10) [(1:ℚ), 2]
    ⟨by norm_num, by norm_num [meanSq]⟩ (by norm_num) (by norm_num)
    (by
      unfold normalizeVolume
      rw [if_pos (by norm_num : (1/20 : ℚ) < 1/10),
        if_neg (by norm_num : ¬ (1/20 : ℚ) = 0)]
      norm_num)
    ⟨by norm_num, by norm_num [meanSq]⟩

end F5TTS

namespace F5TTS

/-! ## C7 and C8: segment stitching -/

theorem linspace_length (a b : ℚ) (n : ℕ) : (linspace a b n).length = n := by
  simp only [linspace, List.length_map, List.length_range]

theorem mergePair_length (cfd : ℚ) (sr : ℕ) (prev next : List ℚ)
    (hp : (pytrunc (cfd * (sr : ℚ))).toNat ≤ prev.length)
    (hx : (pytrunc (cfd * (sr : ℚ))).toNat ≤ next.length)
    (hpos : 0 < (pytrunc (cfd * (sr : ℚ))).toNat) :
    (mergePair cfd sr prev next).length =
      prev.length + next.length - (pytrunc (cfd * (sr : ℚ))).toNat := by
  set fade := (pytrunc (cfd * (sr : ℚ))).toNat with hfade
  have hn : min fade (min prev.length next.length) = fade := by omega
  simp only [mergePair, ← hfade, hn, if_neg (by omega : ¬ fade = 0)]
  simp only [List.length_append, List.length_take, List.length_zipWith,
    List.length_drop, linspace_length]
  omega

theorem stitch_foldl_length (cfd : ℚ) (sr : ℕ)
    (hpos : 0 < (pytrunc (cfd * (sr : ℚ))).toNat) :
    ∀ (rest : List (List ℚ)) (acc : List ℚ),
      (pytrunc (cfd * (sr : ℚ))).toNat ≤ acc.length →
      (∀ s ∈ rest, (pytrunc (cfd * (sr : ℚ))).toNat ≤ s.length) →
      (rest.foldl (mergePair cfd sr) acc).length +
          rest.length * (pytrunc (cfd * (sr : ℚ))).toNat =
        acc.length + (rest.map List.length).sum := by
  intro rest
  induction rest with
  | nil => intro acc _ _; simp
  | cons r rs ih =>
      intro acc hacc hall
      have hr : (pytrunc (cfd * (sr : ℚ))).toNat ≤ r.length :=
        hall r (List.mem_cons_self r rs)
      have hmerge := mergePair_length cfd sr acc r hacc hr hpos
      have hnext : (pytrunc (cfd * (sr : ℚ))).toNat ≤
          (mergePair cfd sr acc r).length := by omega
      have hih := ih (mergePair cfd sr acc r) hnext
        (fun s hs => hall s (List.mem_cons_of_mem r hs))
      simp only [List.foldl_cons, List.map_cons, List.sum_cons, List.length_cons]
      rw [Nat.succ_mul]
      set P := rs.length * (pytrunc (cfd * (sr : ℚ))).toNat with hP
      omega

/-- C7 (confirmed). -/
theorem C7_stitch_length (segs : List (List ℚ)) (cfd : ℚ) (sr : ℕ)
    (hk : 2 ≤ segs.length) (hcfd : 0 < cfd)
    (hpos : 0 < (pytrunc (cfd * (sr : ℚ))).toNat)
    (hall : ∀ s ∈ segs, (pytrunc (cfd * (sr : ℚ))).toNat ≤ s.length) :
    (stitch segs cfd sr).map List.length =
      some ((segs.map List.length).sum -
        (segs.length - 1) * (pytrunc (cfd * (sr : ℚ))).toNat) := by
  match segs, hk, hall with
  | s :: rest, _, hall =>
    have hc : ¬ cfd ≤ 0 := not_le.mpr hcfd
    simp only [stitch, if_neg hc, Option.map_some']
    have hfold := stitch_foldl_length cfd sr hpos rest s
      (hall s (List.mem_cons_self s rest))
      (fun x hx => hall x (List.mem_cons_of_mem s hx))
    simp only [List.map_cons, List.sum_cons, List.length_cons]
    congr 1
    rw [Nat.add_sub_cancel]
    omega

/-- Witness for `C7_stitch_length`: three 2-sample segments, cross-fade
duration 1 s at 2 Hz, so `fade = 2`; the result keeps 6 - 2*2 = 2 samples. -/
theorem C7_stitch_length_witness :
    (stitch [[(1:ℚ), 2], [3, 4], [5, 6]] 1 2).map List.length = some 2 := by
  have hf : (pytrunc ((1:ℚ) * ((2:ℕ) : ℚ))).toNat = 2 := by
    norm_num [pytrunc]
    decide
  have h := C7_stitch_length [[(1:ℚ), 2], [3, 4], [5, 6]] 1 2 (by norm_num)
    (by norm_num) (by rw [hf]; norm_num)
    (by
      intro s hs
      rw [hf]
      simp only [List.mem_cons, List.not_mem_nil, or_false] at hs
      rcases hs with rfl | rfl | rfl <;> simp)
  rw [h, hf]
  norm_num

/-- C8 (confirmed): stitching a nonempty segment list with
`cross_fade_duration ≤ 0`, or a single segment with any cross-fade duration,
returns exactly the plain in-order concatenation, every sample unchanged.
(On an empty segment list `generate` raises `RuntimeError` before stitching,
so no stitched waveform exists there.) -/
theorem C8_stitch_concat (segs : List (List ℚ)) (cfd : ℚ) (sr : ℕ)
    (hne : segs ≠ []) (h : cfd ≤ 0 ∨ segs.length = 1) :
    stitch segs cfd sr = some segs.flatten := by
  match segs, hne with
  | s :: rest, _ =>
    rcases h with h | h
    · simp [stitch, if_pos h]
    · have hrest : rest = [] := by
        have : rest.length = 0 := by simpa using h
        exact List.length_eq_zero.mp this
      subst hrest
      by_cases hc : cfd ≤ 0 <;> simp [stitch, hc]

/-- Witness for `C8_stitch_concat`: two segments at cross-fade 0 concatenate
exactly. -/
theorem C8_stitch_concat_witness :
    stitch [[(1:ℚ), 2], [3, 4]] 0 24000 = some [1, 2, 3, 4] := by
  have h := C8_stitch_concat [[(1:ℚ), 2], [3, 4]] 0 24000 (by simp)
    (Or.inl le_rfl)
  simpa using h

end F5TTS

namespace F5TTS

/-! ## C9 and C10: preprocessing control flow -/

/-- C9 (confirmed): if any fallible stage of `preprocess_reference` fails
(audio decode, silence clipping, transcription, or tensor loading), the
stored reference state keeps exactly the values it had before the call: the
three stores of lines 323-325 only run after every fallible stage has
succeeded, so a failed call never partially overwrites the reference slot. -/
theorem C9_preprocess_error_preserves_state (st : RefState) (hop targetSr : ℕ)
    (targetRms : ℚ) (refText : List Char) (decodeRes clipRes : Except PyErr Unit)
    (transcribeRes : Except PyErr (List Char)) (loadRes : Except PyErr (List ℚ × ℕ))
    (rmsVal : ℚ) (resample : List ℚ → ℕ → ℕ → List ℚ) (e : PyErr)
    (h : (preprocess_reference st hop targetSr targetRms refText decodeRes clipRes
        transcribeRes loadRes rmsVal resample).2 = .error e) :
    (preprocess_reference st hop targetSr targetRms refText decodeRes clipRes
        transcribeRes loadRes rmsVal resample).1 = st := by
  cases decodeRes with
  | error e1 => rfl
  | ok u =>
    cases clipRes with
    | error e1 => rfl
    | ok v =>
      cases htr : (if (pyStrip refText).isEmpty then transcribeRes
          else Except.ok refText) with
      | error e1 => simp only [preprocess_reference, htr]
      | ok t0 =>
        cases loadRes with
        | error e1 => simp only [preprocess_reference, htr]
        | ok p =>
          obtain ⟨audio0, sr⟩ := p
          exfalso
          simp only [preprocess_reference, htr] at h
          exact Except.noConfusion h

/-- Witness for `C9_preprocess_error_preserves_state`: a failing decode
leaves a populated reference slot untouched. -/
theorem C9_witness :
    (preprocess_reference ⟨some [1], some ['a'], some 5⟩ 256 24000 (1/10)
      "Hi".toList (.error .decodeFailed) (.ok ()) (.ok "x".toList)
      (.ok ([], 24000)) 0 (fun a _ _ => a)).1 =
      ⟨some [1], some ['a'], some 5⟩ :=
  C9_preprocess_error_preserves_state ⟨some [1], some ['a'], some 5⟩ 256 24000
    (1/10) "Hi".toList (.error .decodeFailed) (.ok ()) (.ok "x".toList)
    (.ok ([], 24000)) 0 (fun a _ _ => a) .decodeFailed rfl

/-- C10 (confirmed): after every successful `preprocess_reference` call the
stored transcript is the punctuation-normalized transcript, which ends in
`". "` or `"。"` and is therefore non-empty; its UTF-8 byte length — the
divisor `ref_text_len` of the duration estimate in every later `generate`
call — is strictly positive, so that division never divides by zero. -/
theorem C10_transcript_divisor_positive (st : RefState) (hop targetSr : ℕ)
    (targetRms : ℚ) (refText : List Char) (decodeRes clipRes : Except PyErr Unit)
    (transcribeRes : Except PyErr (List Char)) (loadRes : Except PyErr (List ℚ × ℕ))
    (rmsVal : ℚ) (resample : List ℚ → ℕ → ℕ → List ℚ) (audio : List ℚ)
    (t : List Char)
    (h : (preprocess_reference st hop targetSr targetRms refText decodeRes clipRes
        transcribeRes loadRes rmsVal resample).2 = .ok (audio, t)) :
    (preprocess_reference st hop targetSr targetRms refText decodeRes clipRes
        transcribeRes loadRes rmsVal resample).1.ref_text = some t ∧
    (['.', ' '].isSuffixOf t ∨ ['。'].isSuffixOf t) ∧
    0 < utf8Len t ∧ ((utf8Len t : ℚ) ≠ 0) := by
  cases decodeRes with
  | error e1 => exact Except.noConfusion h
  | ok u =>
    cases clipRes with
    | error e1 => exact Except.noConfusion h
    | ok v =>
      cases htr : (if (pyStrip refText).isEmpty then transcribeRes
          else Except.ok refText) with
      | error e1 =>
          exfalso
          simp only [preprocess_reference, htr] at h
          exact Except.noConfusion h
      | ok t0 =>
        cases loadRes with
        | error e1 =>
            exfalso
            simp only [preprocess_reference, htr] at h
            exact Except.noConfusion h
        | ok p =>
          obtain ⟨audio0, sr⟩ := p
          simp only [preprocess_reference, htr] at h ⊢
          have hpair := Except.ok.inj h
          have ht : t = fixPunct t0 := (Prod.ext_iff.mp hpair).2.symm
          have hpos : 0 < utf8Len t := by
            rw [ht]
            exact utf8Len_pos (fixPunct_ne_nil t0)
          refine ⟨?_, ?_, hpos, ?_⟩
          · rw [ht]
          · rw [ht]
            exact fixPunct_endsProper t0
          · have : utf8Len t ≠ 0 := Nat.pos_iff_ne_zero.mp hpos
            exact_mod_cast this
  
/-- Witness for `C10_transcript_divisor_positive`: a successful run with the
given transcript `"Hi"` stores `"Hi. "`, which ends in `". "` and has
positive byte length. -/
theorem C10_witness :
    (preprocess_reference ⟨none, none, none⟩ 256 24000 0 "Hi".toList (.ok ())
      (.ok ()) (.ok []) (.ok ([], 24000)) 0 (fun a _ _ => a)).1.ref_text =
      some "Hi. ".toList ∧
    (['.', ' '].isSuffixOf "Hi. ".toList ∨ ['。'].isSuffixOf "Hi. ".toList) ∧
    0 < utf8Len "Hi. ".toList ∧ ((utf8Len "Hi. ".toList : ℚ) ≠ 0) :=
  C10_transcript_divisor_positive ⟨none, none, none⟩ 256 24000 0 "Hi".toList
    (.ok ()) (.ok ()) (.ok []) (.ok ([], 24000)) 0 (fun a _ _ => a) [] 
    "Hi. ".toList rfl

end F5TTS

namespace F5TTS

/-! ## C6: text segmenter — word-preservation machinery -/

/-- A word produced by `str.split()`: nonempty and whitespace-free. -/
def goodWord (w : List Char) : Prop := w ≠ [] ∧ ∀ c ∈ w, pyIsSpace c = false

theorem pyWordsAux_append_space (sp : Char) (hsp : pyIsSpace sp) (b : List Char) :
    ∀ (a : List Char) (cur : List Char),
      pyWordsAux (a ++ sp :: b) cur = pyWordsAux a cur ++ pyWords b := by
  intro a
  induction a with
  | nil =>
      intro cur
      simp [pyWordsAux, hsp, pyWords]
  | cons c a ih =>
      intro cur
      by_cases hc : pyIsSpace c
      · simp [pyWordsAux, hc, ih]
  
      · simp [pyWordsAux, hc, ih]

theorem pyWordsAux_allSpace :
    ∀ (t : List Char), (∀ c ∈ t, pyIsSpace c = true) →
      ∀ cur, pyWordsAux t cur = flushCur cur := by
  intro t
  induction t with
  | nil => intro _ cur; rfl
  | cons c t ih =>
      intro h cur
      have hc : pyIsSpace c = true := h c (List.mem_cons_self c t)
      have ht := ih (fun x hx => h x (List.mem_cons_of_mem c hx))
      simp [pyWordsAux, hc, ht, flushCur]

theorem pyWordsAux_append_allSpace (t : List Char)
    (ht : ∀ c ∈ t, pyIsSpace c = true) :
    ∀ (a : List Char) (cur : List Char),
      pyWordsAux (a ++ t) cur = pyWordsAux a cur := by
  intro a
  induction a with
  | nil =>
      intro cur
      simp [pyWordsAux, pyWordsAux_allSpace t ht]
  | cons c a ih =>
      intro cur
      by_cases hc : pyIsSpace c <;> simp [pyWordsAux, hc, ih]

theorem pyWords_cons_space (c : Char) (hc : pyIsSpace c) (b : List Char) :
    pyWords (c :: b) = pyWords b := by
  simp [pyWords, pyWordsAux, hc, flushCur]

theorem pyWords_allSpace_append (t : List Char)
    (ht : ∀ c ∈ t, pyIsSpace c = true) (b : List Char) :
    pyWords (t ++ b) = pyWords b := by
  induction t with
  | nil => rfl
  | cons c t ih =>
      have hc := ht c (List.mem_cons_self c t)
      have ht2 := fun x hx => ht x (List.mem_cons_of_mem c hx)
      rw [List.cons_append, pyWords_cons_space c hc, ih ht2]

theorem pyWords_lstrip (s : List Char) : pyWords (pyLstrip s) = pyWords s := by
  unfold pyLstrip
  conv_rhs => rw [← List.takeWhile_append_dropWhile (p := fun c => pyIsSpace c) (l := s)]
  rw [pyWords_allSpace_append]
  intro c hc
  exact List.mem_takeWhile_imp hc

theorem pyRstrip_decomp (s : List Char) :
    s = pyRstrip s ++ (s.reverse.takeWhile (fun c => pyIsSpace c)).reverse := by
  unfold pyRstrip
  conv_lhs => rw [← List.reverse_reverse s,
    ← List.takeWhile_append_dropWhile (p := fun c => pyIsSpace c) (l := s.reverse)]
  rw [List.reverse_append]

theorem pyWords_rstrip (s : List Char) : pyWords (pyRstrip s) = pyWords s := by
  conv_rhs => rw [pyRstrip_decomp s]
  unfold pyWords
  rw [pyWordsAux_append_allSpace]
  intro c hc
  rw [List.mem_reverse] at hc
  exact List.mem_takeWhile_imp hc

theorem pyWords_strip (s : List Char) : pyWords (pyStrip s) = pyWords s := by
  unfold pyStrip
  rw [pyWords_rstrip, pyWords_lstrip]

theorem pyWordsAux_good :
    ∀ (s : List Char) (cur : List Char), (∀ c ∈ cur, pyIsSpace c = false) →
      ∀ w ∈ pyWordsAux s cur, goodWord w := by
  intro s
  induction s with
  | nil =>
      intro cur hcur w hw
      unfold pyWordsAux flushCur at hw
      by_cases hc : cur.isEmpty
      · simp [hc] at hw
      · simp [hc] at hw
        subst hw
        refine ⟨by simpa using (List.isEmpty_eq_false.mp (by simpa using hc)), ?_⟩
        intro c hc2
        exact hcur c (List.mem_reverse.mp hc2)
  | cons c s ih =>
      intro cur hcur w hw
      by_cases hc : pyIsSpace c
      · rw [pyWordsAux, if_pos hc] at hw
        rcases List.mem_append.mp hw with hw | hw
        · unfold flushCur at hw
          by_cases hce : cur.isEmpty
          · simp [hce] at hw
          · simp [hce] at hw
            subst hw
            refine ⟨by simpa using (List.isEmpty_eq_false.mp (by simpa using hce)), ?_⟩
            intro x hx
            exact hcur x (List.mem_reverse.mp hx)
        · exact ih [] (by simp) w hw
      · rw [pyWordsAux, if_neg hc] at hw
        refine ih (c :: cur) ?_ w hw
        intro x hx
        rcases List.mem_cons.mp hx with rfl | hx
        · simpa using hc
        · exact hcur x hx

theorem pyWords_good (s : List Char) : ∀ w ∈ pyWords s, goodWord w :=
  pyWordsAux_good s [] (by simp)

theorem pyWordsAux_noSpace :
    ∀ (w : List Char), (∀ c ∈ w, pyIsSpace c = false) →
      ∀ cur, pyWordsAux w cur = flushCur (w.reverse ++ cur) := by
  intro w
  induction w with
  | nil => intro _ cur; simp [pyWordsAux]
  | cons c w ih =>
      intro h cur
      have hc : pyIsSpace c = false := h c (List.mem_cons_self c w)
      rw [pyWordsAux, if_neg (by simp [hc])]
      rw [ih (fun x hx => h x (List.mem_cons_of_mem c hx)) (c :: cur)]
      congr 1
      simp

theorem pyWords_single (w : List Char) (hw : goodWord w) : pyWords w = [w] := by
  unfold pyWords
  rw [pyWordsAux_noSpace w hw.2 []]
  unfold flushCur
  rw [List.append_nil]
  rw [if_neg (by simpa using (by simpa [List.isEmpty_iff] using hw.1))]
  rw [List.reverse_reverse]

end F5TTS

namespace F5TTS

theorem pyWords_append_space (sp : Char) (hsp : pyIsSpace sp) (a b : List Char) :
    pyWords (a ++ sp :: b) = pyWords a ++ pyWords b :=
  pyWordsAux_append_space sp hsp b a []

theorem reSplitAux_words (punct : List Char) :
    ∀ (s cur : List Char) (inSep : Bool), (inSep = true → cur = []) →
      ((reSplitAux punct s cur inSep).map pyWords).flatten =
        pyWords (cur.reverse ++ s) := by
  intro s
  induction s with
  | nil =>
      intro cur inSep _
      simp [reSplitAux]
  | cons c s ih =>
      intro cur inSep hinv
      rw [reSplitAux]
      by_cases h1 : (inSep && pyIsSpace c) = true
      · rw [if_pos h1]
        obtain ⟨hsep, hc⟩ := Bool.and_eq_true_iff.mp h1
        have hcur : cur = [] := hinv hsep
        subst hcur
        rw [ih [] true (fun _ => rfl)]
        simp [pyWords_cons_space c hc]
      · rw [if_neg h1]
        by_cases h2 : (pyIsSpace c && headPunct punct cur) = true
        · rw [if_pos h2]
          obtain ⟨hc, _⟩ := Bool.and_eq_true_iff.mp h2
          simp only [List.map_cons, List.flatten_cons]
          rw [ih [] true (fun _ => rfl)]
          simp only [List.reverse_nil, List.nil_append]
          rw [pyWords_append_space c hc cur.reverse s]
        · rw [if_neg h2]
          rw [ih (c :: cur) false (by simp)]
          simp

theorem reSplitAfter_words (punct : List Char) (s : List Char) :
    ((reSplitAfter punct s).map pyWords).flatten = pyWords s := by
  unfold reSplitAfter
  rw [reSplitAux_words punct s [] false (by simp)]
  rfl

theorem flatten_map_words (g : List Char → List (List Char))
    (hg : ∀ c, ((g c).map pyWords).flatten = pyWords c) :
    ∀ cs : List (List Char),
      (((cs.map g).flatten).map pyWords).flatten = (cs.map pyWords).flatten := by
  intro cs
  induction cs with
  | nil => rfl
  | cons c cs ih =>
      simp only [List.map_cons, List.flatten_cons, List.map_append,
        List.flatten_append, ih, hg c]

theorem applyPattern_words (maxB : ℕ) (punct : List Char)
    (cs : List (List Char)) :
    ((applyPattern maxB punct cs).map pyWords).flatten = (cs.map pyWords).flatten := by
  unfold applyPattern
  by_cases h : cs.all (fun c => decide (utf8Len c ≤ maxB)) = true
  · rw [if_pos h]
  · rw [if_neg h]
    refine flatten_map_words _ ?_ cs
    intro c
    by_cases hc : utf8Len c ≤ maxB
    · simp [hc]
    · rw [if_neg hc]
      exact reSplitAfter_words punct c

theorem packWords_words (maxB : ℕ) :
    ∀ (ws : List (List Char)) (cur : List Char), (∀ w ∈ ws, goodWord w) →
      ((packWords maxB ws cur).map pyWords).flatten = pyWords cur ++ ws := by
  intro ws
  induction ws with
  | nil =>
      intro cur _
      unfold packWords
      by_cases hc : cur.isEmpty
      · have : cur = [] := by simpa [List.isEmpty_iff] using hc
        simp [hc, this, pyWords, pyWordsAux, flushCur]
      · simp [hc]
  | cons w ws ih =>
      intro cur hgood
      have hw : goodWord w := hgood w (List.mem_cons_self w ws)
      have hws : ∀ x ∈ ws, goodWord x :=
        fun x hx => hgood x (List.mem_cons_of_mem w hx)
      rw [packWords]
      by_cases h1 : utf8Len (cur ++ ' ' :: w) ≤ maxB
      · rw [if_pos h1, ih _ hws, pyWords_strip,
          pyWords_append_space ' ' (by simp [pyIsSpace]) cur w,
          pyWords_single w hw]
        simp
      · rw [if_neg h1]
        by_cases h2 : cur.isEmpty
        · have hcur : cur = [] := by simpa [List.isEmpty_iff] using h2
          rw [if_pos h2, ih _ hws, pyWords_single w hw, hcur]
          simp [pyWords, pyWordsAux, flushCur]
        · rw [if_neg h2]
          simp only [List.map_cons, List.flatten_cons, ih _ hws,
            pyWords_single w hw]
          simp

theorem wordPhase_words (maxB : ℕ) (cs : List (List Char)) :
    ((wordPhase maxB cs).map pyWords).flatten = (cs.map pyWords).flatten := by
  unfold wordPhase
  refine flatten_map_words _ ?_ cs
  intro c
  by_cases hc : utf8Len c ≤ maxB
  · simp [hc]
  · rw [if_neg hc, packWords_words maxB (pyWords c) [] (pyWords_good c)]
    rfl

theorem sltCore_words (text : List Char) (maxB : ℕ) :
    ((sltCore text maxB).map pyWords).flatten = pyWords text := by
  unfold sltCore
  rw [wordPhase_words, applyPattern_words, applyPattern_words, applyPattern_words]
  simp

end F5TTS

namespace F5TTS

/-! ## C6: text segmenter — chunk size bounds -/

/-- Invariant satisfied by every chunk entering the final
boundary-punctuation pass: it fits the byte limit, or it is
whitespace-free (a single word, possibly oversized). -/
def chunkOk (maxB : ℕ) (c : List Char) : Prop :=
  utf8Len c ≤ maxB ∨ ∀ ch ∈ c, pyIsSpace ch = false

theorem utf8Len_reverse (s : List Char) : utf8Len s.reverse = utf8Len s := by
  simp [utf8Len, List.map_reverse, List.sum_reverse]

theorem utf8Len_dropWhile_le (p : Char → Bool) (s : List Char) :
    utf8Len (s.dropWhile p) ≤ utf8Len s := by
  conv_rhs => rw [← List.takeWhile_append_dropWhile (p := p) (l := s)]
  rw [utf8Len_append]
  omega

theorem utf8Len_rstrip_le (s : List Char) : utf8Len (pyRstrip s) ≤ utf8Len s := by
  unfold pyRstrip
  rw [utf8Len_reverse, ← utf8Len_reverse s]
  exact utf8Len_dropWhile_le _ _

theorem utf8Len_strip_le (s : List Char) : utf8Len (pyStrip s) ≤ utf8Len s := by
  unfold pyStrip pyLstrip
  exact le_trans (utf8Len_rstrip_le _) (utf8Len_dropWhile_le _ _)

theorem packWords_bound (maxB : ℕ) :
    ∀ (ws : List (List Char)) (cur : List Char),
      (∀ w ∈ ws, ∀ ch ∈ w, pyIsSpace ch = false) → chunkOk maxB cur →
      ∀ c ∈ packWords maxB ws cur, chunkOk maxB c := by
  intro ws
  induction ws with
  | nil =>
      intro cur _ hcur c hc
      unfold packWords at hc
      by_cases he : cur.isEmpty
      · simp [he] at hc
      · simp [he] at hc
        subst hc
        exact hcur
  | cons w ws ih =>
      intro cur hws hcur c hc
      have hw : ∀ ch ∈ w, pyIsSpace ch = false :=
        hws w (List.mem_cons_self w ws)
      have hws2 : ∀ x ∈ ws, ∀ ch ∈ x, pyIsSpace ch = false :=
        fun x hx => hws x (List.mem_cons_of_mem w hx)
      rw [packWords] at hc
      by_cases h1 : utf8Len (cur ++ ' ' :: w) ≤ maxB
      · rw [if_pos h1] at hc
        refine ih _ hws2 ?_ c hc
        exact Or.inl (le_trans (utf8Len_strip_le _) h1)
      · rw [if_neg h1] at hc
        by_cases h2 : cur.isEmpty
        · rw [if_pos h2] at hc
          exact ih _ hws2 (Or.inr hw) c hc
        · rw [if_neg h2] at hc
          rcases List.mem_cons.mp hc with rfl | hc
          · exact hcur
          · exact ih _ hws2 (Or.inr hw) c hc

theorem wordPhase_bound (maxB : ℕ) (cs : List (List Char)) :
    ∀ c ∈ wordPhase maxB cs, chunkOk maxB c := by
  intro c hc
  unfold wordPhase at hc
  rw [List.mem_flatten] at hc
  obtain ⟨l, hl, hcl⟩ := hc
  rw [List.mem_map] at hl
  obtain ⟨x, _, hx⟩ := hl
  subst hx
  by_cases hb : utf8Len x ≤ maxB
  · rw [if_pos hb] at hcl
    simp at hcl
    subst hcl
    exact Or.inl hb
  · rw [if_neg hb] at hcl
    refine packWords_bound maxB (pyWords x) [] ?_ (Or.inl (by simp [utf8Len])) c hcl
    intro w hw
    exact (pyWords_good x w hw).2

theorem dropWhile_of_allFalse (p : Char → Bool) :
    ∀ (l : List Char), (∀ ch ∈ l, p ch = false) → l.dropWhile p = l := by
  intro l h
  cases l with
  | nil => rfl
  | cons c l =>
      rw [List.dropWhile_cons, if_neg]
      rw [h c (List.mem_cons_self c l)]
      simp

theorem pyRstrip_of_spaceFree (c : List Char)
    (h : ∀ ch ∈ c, pyIsSpace ch = false) : pyRstrip c = c := by
  unfold pyRstrip
  rw [dropWhile_of_allFalse _ _ (fun ch hch => h ch (List.mem_reverse.mp hch))]
  exact List.reverse_reverse c

/-- Every chunk after the boundary-punctuation pass either fits in
`maxB + 1` bytes (the inserted comma can add one byte to a chunk at the
limit) or contains at most one word. -/
theorem fixChunk_bound (maxB : ℕ) (c : List Char) (h : chunkOk maxB c) :
    utf8Len (fixChunk c) ≤ maxB + 1 ∨ (pyWords (fixChunk c)).length ≤ 1 := by
  have hfinal : ∀ d : List Char, chunkOk maxB d →
      utf8Len d ≤ maxB + 1 ∨ (pyWords d).length ≤ 1 := by
    intro d hd
    rcases hd with hd | hd
    · exact Or.inl (le_trans hd (Nat.le_succ maxB))
    · right
      by_cases hn : d = []
      · subst hn
        simp [pyWords, pyWordsAux, flushCur]
      · rw [pyWords_single d ⟨hn, hd⟩]
        simp
  unfold fixChunk
  by_cases hp : endsSentencePunct (pyRstrip c) = true
  · rw [if_pos hp]
    exact hfinal c h
  · rw [if_neg hp]
    rcases h with hle | hsf
    · left
      rw [utf8Len_append]
      have := utf8Len_rstrip_le c
      have hcomma : utf8Len [','] = 1 := by decide
      omega
    · refine hfinal _ ?_
      right
      rw [pyRstrip_of_spaceFree c hsf]
      intro ch hch
      rcases List.mem_append.mp hch with hch | hch
      · exact hsf ch hch
      · simp at hch
        subst hch
        decide

theorem splitFix_bound (maxB : ℕ) :
    ∀ (cs : List (List Char)), (∀ c ∈ cs, chunkOk maxB c) →
      ∀ c ∈ splitFix cs,
        utf8Len c ≤ maxB + 1 ∨ (pyWords c).length ≤ 1 := by
  intro cs
  induction cs with
  | nil => intro _ c hc; simp [splitFix] at hc
  | cons d cs ih =>
      intro h c hc
      cases cs with
      | nil =>
          simp [splitFix] at hc
          have hmem : c ∈ [d] := by simp [hc]
          rcases h c hmem with hd | hd
          · exact Or.inl (le_trans hd (Nat.le_succ maxB))
          · right
            by_cases hn : c = []
            · subst hn
              simp [pyWords, pyWordsAux, flushCur]
            · rw [pyWords_single c ⟨hn, hd⟩]
              simp
      | cons e cs2 =>
          rw [show splitFix (d :: e :: cs2) = fixChunk d :: splitFix (e :: cs2)
            from rfl] at hc
          rcases List.mem_cons.mp hc with rfl | hc
          · exact fixChunk_bound maxB d (h d (List.mem_cons_self d _))
          · exact ih (fun x hx => h x (List.mem_cons_of_mem d hx)) c hc

end F5TTS

namespace F5TTS

/-- Claim C6 as stated is false on two counts. (1) A chunk that ends exactly
at the byte limit and receives the inserted boundary comma exceeds the limit
while containing two words: `split_long_text "ab cd ef gh" 5 =
["ab cd,", "ef gh"]`, whose first chunk has 6 > 5 bytes and is not a single
word. (2) Chunks can be empty: `split_long_text "abc. def. " 5 =
["abc.", "def.", ""]` ends with an empty chunk, because `re.split` yields an
empty final field after a trailing sentence separator. -/
theorem C6_counterexample :
    (∃ c ∈ split_long_text "ab cd ef gh".toList 5,
      5 < utf8Len c ∧ 2 ≤ (pyWords c).length) ∧
    (∃ c ∈ split_long_text "abc. def. ".toList 5, c = []) := by decide

/-- C6 (amended): for every text T and limit L, `split_long_text` returns an
ordered sequence of chunks — possibly including empty ones — in which every
chunk either has UTF-8 byte length at most L + 1 (the boundary-punctuation
pass can append one comma byte to a chunk at the limit) or contains at most
one whitespace-delimited word (a single word exceeding L is emitted as its
own oversized chunk, never truncated); and the output is exactly the
boundary-punctuation pass (`splitFix`, which only right-trims a chunk and
appends a comma) applied to a chunk sequence whose words, concatenated in
order, are exactly T's words in their original order. -/
theorem C6_amended (text : List Char) (maxB : ℕ) :
    ((split_long_text text maxB).all
      (fun c => decide (utf8Len c ≤ maxB + 1) || decide ((pyWords c).length ≤ 1))) = true ∧
    ((sltCore text maxB).map pyWords).flatten = pyWords text ∧
    split_long_text text maxB = splitFix (sltCore text maxB) := by
  refine ⟨?_, sltCore_words text maxB, rfl⟩
  rw [List.all_eq_true]
  intro c hc
  have hok : ∀ x ∈ sltCore text maxB, chunkOk maxB x := by
    intro x hx
    unfold sltCore at hx
    exact wordPhase_bound maxB _ x hx
  have hmem : c ∈ splitFix (sltCore text maxB) := hc
  rcases splitFix_bound maxB (sltCore text maxB) hok c hmem with h | h <;>
    simp [h]

end F5TTS
